import Mathlib

/-!
# Verification of the `git-diff` change-list library

Shallow embedding of the TypeScript sources (`src/Diff.ts` and the unnamed
variant module) and proofs about the claims of the specification.

Strings are modelled as `List Char`.  The JavaScript `Map` is modelled as its
insertion-ordered list of key/value entries, so a `Diff` (which wraps exactly
one such map) is an insertion-ordered association list from paths to statuses.
The glob-matching collaborator (`picomatch`) is kept abstract: every operation
that compiles patterns takes the compiled matcher-producing function as an
explicit argument.
-/

set_option autoImplicit false

namespace GitDiff

/-- The apostrophe character (code point 39), used by the
`bad revision` diagnostic pattern. -/
def quoteChar : Char := Char.ofNat 39

/-- JavaScript `\w` (word character): `[A-Za-z0-9_]`.
The regex in `parse` uses `[^\W]` which denotes exactly this class. -/
def isWordChar (c : Char) : Bool :=
  let n := c.toNat
  (97 ≤ n && n ≤ 122) || (65 ≤ n && n ≤ 90) || (48 ≤ n && n ≤ 57) || n == 95

/-- JavaScript line terminators, the characters that `.` in a regex
never matches: LF, CR, LINE SEPARATOR, PARAGRAPH SEPARATOR. -/
def isLineTerm (c : Char) : Bool :=
  let n := c.toNat
  n == 10 || n == 13 || n == 8232 || n == 8233

/-- The JavaScript whitespace class stripped by `String.prototype.trim`:
tab, LF, VT, FF, CR, space, NBSP, Ogham space, the U+2000–U+200A range,
LS, PS, narrow NBSP, MM space, ideographic space and the BOM. -/
def isJsWs (c : Char) : Bool :=
  let n := c.toNat
  n == 9 || n == 10 || n == 11 || n == 12 || n == 13 || n == 32 ||
  n == 160 || n == 5760 || (8192 ≤ n && n ≤ 8202) ||
  n == 8232 || n == 8233 || n == 8239 || n == 8287 || n == 12288 || n == 65279

/-- `stdout.split('\n')`: split a string at every LF, keeping empty pieces. -/
def splitNl : List Char → List (List Char)
  | [] => [[]]
  | c :: cs =>
    if c = '\n' then [] :: splitNl cs
    else
      match splitNl cs with
      | l :: ls => (c :: l) :: ls
      | [] => [[c]]

/-- `String.prototype.trim`: strip JavaScript whitespace from both ends. -/
def trim (s : List Char) : List Char :=
  ((s.dropWhile isJsWs).reverse.dropWhile isJsWs).reverse

/-- Backtracking of the `\W+` part of the line regex `^([^\W]*)\W+(.*)$`.
The first argument is the not-yet-consumed separator run *reversed* (so its
head is the character the engine gives back first), the second is the text the
trailing `.*$` currently has to match.  `.*` cannot cross a line terminator,
so on failure the engine returns the last separator character to the
remainder and retries; `\W+` itself fails once the separator run is empty. -/
def sepBTrev : List Char → List Char → Option (List Char)
  | [], _ => none
  | c :: sepRev, rest =>
    if rest.all (fun x => !(isLineTerm x)) then some rest
    else sepBTrev sepRev (c :: rest)

/-- `line.match(/^([^\W]*)\W+(.*)$/)`: the first group greedily takes the
maximal word-character prefix (it can never backtrack, because `\W+` refuses a
word character), the separator takes the maximal non-word run and backtracks
against `.*$`.  Returns the two captured groups. -/
def execLineRegex (s : List Char) : Option (List Char × List Char) :=
  let w := s.takeWhile isWordChar
  let r := s.dropWhile isWordChar
  let sep := r.takeWhile (fun c => !(isWordChar c))
  let rest := r.dropWhile (fun c => !(isWordChar c))
  match sepBTrev sep.reverse rest with
  | some g2 => some (w, g2)
  | none => none

/-- A repository path (`type Path = string`). -/
abbrev Path := List Char

/-- A status code (`type Status`).  The cast in `parse` is unchecked, so any
captured token is stored verbatim; the named constants below are the six
values the `Status` object defines. -/
abbrev Status := List Char

/-- `Status.Added` -/
def Status.Added : Status := ['A']
/-- `Status.Changed` -/
def Status.Changed : Status := ['C']
/-- `Status.Deleted` -/
def Status.Deleted : Status := ['D']
/-- `Status.Modified` -/
def Status.Modified : Status := ['M']
/-- `Status.Renamed` -/
def Status.Renamed : Status := ['R']
/-- `Status.Unknown` -/
def Status.Unknown : Status := ['X']

/-- One line of `parse`: run the regex, trim both groups, and keep the entry
only when both are non-empty (string truthiness).  Returns `(path, status)`
mirroring the `[key, value]` shape of the map entry that gets stored. -/
def lineToEntry (l : List Char) : Option (Path × Status) :=
  match execLineRegex l with
  | some (g1, g2) =>
    let status := trim g1
    let path := trim g2
    if status ≠ [] ∧ path ≠ [] then some (path, status) else none
  | none => none

/-- A JavaScript `Map<Path, Status>` modelled as its insertion-ordered entry
list, and therefore also the `Diff` class, which wraps exactly one such map
(`#diff`) and iterates it in insertion order. -/
abbrev Diff := List (Path × Status)

/-- `map.set(p, s)`: overwrite the value in place when the key is present
(keeping its position), otherwise append the new entry. -/
def mapSet (m : Diff) (p : Path) (s : Status) : Diff :=
  if m.any (fun e => e.1 == p) then
    m.map (fun e => if e.1 == p then (p, s) else e)
  else
    m ++ [(p, s)]

/-- `new Map(iterable)` (and hence `new Diff(iterable)` for a non-`Map`
iterable): insert the pairs left to right into an empty map. -/
def newMap (pairs : List (Path × Status)) : Diff :=
  pairs.foldl (fun m e => mapSet m e.1 e.2) []

/-- `Diff.prototype.size` -/
def Diff.size (d : Diff) : Nat := d.length

/-- The keys of the map in iteration order (`Diff.prototype.paths`). -/
def keys (d : Diff) : List Path := d.map Prod.fst

/-- `Map.prototype.get`: value of the first (and in a real map, only)
entry with the given key. -/
def Diff.get (d : Diff) (p : Path) : Option Status :=
  (d.find? (fun e => e.1 == p)).map Prod.snd

/-- The parse error `new Error("Invalid line in diff output: " + line)`. -/
inductive ParseError where
  | invalidLine (line : List Char)
  deriving DecidableEq

/-- The loop of `parse`: skip empty lines, store each extracted entry,
throw on the first malformed line. -/
def parseLines (m : Diff) : List (List Char) → Except ParseError Diff
  | [] => .ok m
  | l :: ls =>
    if l = [] then parseLines m ls
    else
      match lineToEntry l with
      | some (p, s) => parseLines (mapSet m p s) ls
      | none => .error (.invalidLine l)

/-- `parse(stdout)`: split on LF and process every line. -/
def parse (stdout : List Char) : Except ParseError Diff :=
  parseLines [] (splitNl stdout)

/-! ## The `match` query surface (`src/Diff.ts`) -/

/-- The argument of `Diff.match`: a single path or an array of paths. -/
inductive PathSel where
  | one (p : Path)
  | many (ps : List Path)
  deriving DecidableEq

/-- `toArray(value)`: an array is kept, a truthy value is wrapped in a
singleton, a falsy value (for a string: the empty string) becomes `[]`. -/
def toArray : PathSel → List Path
  | .one p => if p = [] then [] else [p]
  | .many ps => ps

/-- The `Match` view returned by `Diff.match`: one boolean per named status
kind.  The getters re-scan the entries at each access, which for the immutable
map is the same as computing them once; we record the computed values. -/
structure Match where
  added : Bool
  changed : Bool
  deleted : Bool
  modified : Bool
  renamed : Bool
  unknown : Bool
  deriving DecidableEq

/-- `Diff.match(pathOrPaths)`: compile the selector with the glob
collaborator (`picomatch`, abstracted as `globM`) and test per status kind
whether some entry has that status and a matching path. -/
def Diff.matchSel (globM : List Path → Path → Bool) (d : Diff) (sel : PathSel) : Match :=
  let matcher := globM (toArray sel)
  { added := d.any fun e => e.2 == Status.Added && matcher e.1
    changed := d.any fun e => e.2 == Status.Changed && matcher e.1
    deleted := d.any fun e => e.2 == Status.Deleted && matcher e.1
    modified := d.any fun e => e.2 == Status.Modified && matcher e.1
    renamed := d.any fun e => e.2 == Status.Renamed && matcher e.1
    unknown := d.any fun e => e.2 == Status.Unknown && matcher e.1 }

/-! ## The `filter` query surface (unnamed variant module) -/

/-- `Diff.filter({paths, statuses})`: the matcher is compiled from the given
patterns (or `[]` when absent); an entry survives when the path matches (if a
pattern list was given) and its status is a member of the status list (if one
was given).  The surviving entries are poured into a fresh map. -/
def Diff.filter (globM : List Path → Path → Bool) (d : Diff)
    (pathsOpt : Option (List Path)) (statusesOpt : Option (List Status)) : Diff :=
  let matcher := globM (pathsOpt.getD [])
  newMap (List.filter (fun e =>
    (match pathsOpt with
     | some _ => matcher e.1
     | none => true) &&
    (match statusesOpt with
     | some statuses => statuses.contains e.2
     | none => true)) d)

/-! ## Error classification and the diff operation -/

/-- `const errorName = 'GitDiffError'` -/
def errorName : List Char := "GitDiffError".data

/-- `const badRevisionErrorCode = 'BAD_REVISION'` -/
def badRevisionErrorCode : List Char := "BAD_REVISION".data

/-- A failure of the external command, as the core observes it: an error
value exposing the diagnostic stream content (`stderr`). -/
structure ExecError where
  stderr : List Char
  deriving DecidableEq

/-- The error object built by `throwGitDiffError`: an `Error` whose `name`,
`code` and `message` properties are assigned.  (No other property is set; in
particular the extracted reference travels only inside `message`.) -/
structure GitDiffError where
  name : List Char
  code : List Char
  message : List Char
  deriving DecidableEq

/-- `isErrorWithStderr(error)`: the error exposes a truthy `stderr`. -/
def isErrorWithStderr (e : ExecError) : Bool :=
  !(e.stderr.isEmpty)

/-- The literal part of the diagnostic pattern `/fatal: bad revision '(.*)'/`. -/
def badRevLit : List Char := "fatal: bad revision ".data ++ [quoteChar]

/-- Matching of `(.*)'` at a fixed position: the capture greedily extends to
just before the last quote of the terminator-free prefix of the remaining
text; there is no match at this position when that prefix holds no quote. -/
def capSearch (tail : List Char) : Option (List Char) :=
  let pre := tail.takeWhile (fun c => !(isLineTerm c))
  match pre.reverse.dropWhile (fun c => !(c == quoteChar)) with
  | [] => none
  | _ :: revCap => some revCap.reverse

/-- `/fatal: bad revision '(.*)'/.exec(s)`: scan left to right for the first
position where the whole pattern matches and return the captured group. -/
def execBadRev : List Char → Option (List Char)
  | [] => none
  | c :: rest =>
    if badRevLit.isPrefixOf (c :: rest) then
      match capSearch ((c :: rest).drop badRevLit.length) with
      | some cap => some cap
      | none => execBadRev rest
    else execBadRev rest

/-- `throwGitDiffError(error)`: either throws the classified `GitDiffError`
(modelled as `some`) or returns without throwing (`none`), in which case the
caller re-throws the original error. -/
def throwGitDiffError (error : ExecError) : Option GitDiffError :=
  if isErrorWithStderr error then
    match execBadRev error.stderr with
    | some ref =>
      some { name := errorName
             code := badRevisionErrorCode
             message := "The ref does not exist: ".data ++ ref }
    | none => none
  else none

/-- Everything `diffAsync`/`diffSync` can throw. -/
inductive DiffOpError where
  | gitDiff (e : GitDiffError)
  | exec (e : ExecError)
  | parseFail (e : ParseError)
  deriving DecidableEq

/-- `diffAsync` (and identically `diffSync`) after the external command has
produced its outcome: parse the output on success; on failure run the
classifier and re-throw the original error when it does not throw.  (A parse
error raised inside the `try` also reaches the classifier, but it carries no
`stderr`, so the classifier always passes it through unchanged.) -/
def diffAsync (result : Except ExecError (List Char)) : Except DiffOpError Diff :=
  match result with
  | .ok stdout =>
    match parse stdout with
    | .ok d => .ok d
    | .error pe => .error (.parseFail pe)
  | .error e =>
    match throwGitDiffError e with
    | some g => .error (.gitDiff g)
    | none => .error (.exec e)

/-! ## Object identity of the backing map

The `Diff` constructor stores the argument itself when it already is a `Map`
(`diff instanceof Map ? diff : new Map(diff)`).  To reason about external
mutation we make the heap of `Map` objects explicit: a store of entry lists
addressed by index.  A constructed `Diff` holds the address of its backing
map; reading it goes through the store. -/

/-- The heap of `Map` objects. -/
abbrev Store := List (List (Path × Status))

/-- The constructor argument: a reference to an existing `Map` object, or a
plain iterable of pairs. -/
inductive CtorArg where
  | fromMap (r : Nat)
  | fromIterable (pairs : List (Path × Status))
  deriving DecidableEq

/-- `new Diff(diff)`: a `Map` argument is stored as-is (the address is
shared); any other iterable is copied into a freshly allocated `Map`.
Returns the (possibly grown) store and the address held in `#diff`. -/
def construct (store : Store) : CtorArg → Store × Nat
  | .fromMap r => (store, r)
  | .fromIterable pairs => (store ++ [newMap pairs], store.length)

/-- External mutation: `m.set(p, s)` performed on the `Map` object at
address `r` of the store. -/
def storeMapSet (store : Store) (r : Nat) (p : Path) (s : Status) : Store :=
  store.set r (mapSet (store.getD r []) p s)

/-- The entries the `Diff` whose `#diff` field holds address `r` observes
(through `size`, iteration and every query). -/
def observe (store : Store) (r : Nat) : List (Path × Status) :=
  store.getD r []

/-! ## Vocabulary for the statements

The following definitions do not embed source code; they are the mathematical
vocabulary in which the theorems below describe the embedded operations. -/

/-- Deduplication keeping the first occurrence, relative to an accumulator of
already-seen elements. -/
def dedupFirstAux (seen : List Path) : List Path → List Path
  | [] => []
  | p :: rest =>
    if seen.contains p then dedupFirstAux seen rest
    else p :: dedupFirstAux (p :: seen) rest

/-- Deduplication keeping the first occurrence of each element. -/
def dedupFirst (l : List Path) : List Path :=
  dedupFirstAux [] l

/-- The status a sequence of writes leaves for a path: the value of the last
pair carrying that path, if any. -/
def lastVal : List (Path × Status) → Path → Option Status
  | [], _ => none
  | (q, s) :: rest, p =>
    match lastVal rest p with
    | some v => some v
    | none => if q == p then some s else none

/-- The entries `parse` extracts, line by line, duplicates included. -/
def lineEntries (t : List Char) : List (Path × Status) :=
  (splitNl t).filterMap (fun l => if l = [] then none else lineToEntry l)

/-- The number of non-blank lines of a text that yield a status token and a
path token (the count the specification compares `size()` against). -/
def validLineCount (t : List Char) : Nat :=
  ((splitNl t).filter (fun l => !(l.isEmpty) && (lineToEntry l).isSome)).length

/-- A concrete stand-in for the glob collaborator, used by the witnesses:
a path matches when it is literally one of the patterns. -/
def globLit (patterns : List Path) (p : Path) : Bool :=
  patterns.contains p

/-- A small concrete diff used by the witnesses. -/
def diffAB : Diff := [("a".data, "A".data), ("b".data, "M".data)]

/-- The canonical bad-revision diagnostic of the specification,
`fatal: bad revision 'nope'`. -/
def nopeDiag : List Char :=
  "fatal: bad revision ".data ++ (quoteChar :: "nope".data) ++ [quoteChar]

/-! ## Character-class facts -/

theorem word_not_ws {c : Char} (h : isWordChar c = true) : isJsWs c = false := by
  simp only [isWordChar, Bool.or_eq_true, Bool.and_eq_true, decide_eq_true_eq,
    beq_iff_eq] at h
  simp only [isJsWs, Bool.or_eq_false_iff, Bool.and_eq_false_iff,
    decide_eq_false_iff_not, beq_eq_false_iff_ne, ne_eq, Bool.and_eq_true]
  omega

theorem word_not_term {c : Char} (h : isWordChar c = true) : isLineTerm c = false := by
  simp only [isWordChar, Bool.or_eq_true, Bool.and_eq_true, decide_eq_true_eq,
    beq_iff_eq] at h
  simp only [isLineTerm, Bool.or_eq_false_iff, beq_eq_false_iff_ne, ne_eq]
  omega

theorem ws_not_word {c : Char} (h : isJsWs c = true) : isWordChar c = false := by
  cases hw : isWordChar c
  · rfl
  · rw [word_not_ws hw] at h; cases h

theorem word_ne_newline {c : Char} (h : isWordChar c = true) : c ≠ '\n' := by
  intro hc
  subst hc
  simp [isWordChar] at h

/-! ## Splitting on newlines -/

theorem splitNl_cons_newline (t : List Char) : splitNl ('\n' :: t) = [] :: splitNl t := by
  simp [splitNl]

theorem splitNl_single {l : List Char} (h : ∀ c ∈ l, c ≠ '\n') : splitNl l = [l] := by
  induction l with
  | nil => rfl
  | cons c t ih =>
    have hc : c ≠ '\n' := h c (List.mem_cons_self c t)
    have ht : splitNl t = [t] := ih fun x hx => h x (List.mem_cons_of_mem c hx)
    simp [splitNl, hc, ht]

/-! ## takeWhile / dropWhile over appends -/

theorem takeWhile_append_of_all {p : Char → Bool} {l₁ : List Char} (l₂ : List Char)
    (h : ∀ c ∈ l₁, p c = true) :
    (l₁ ++ l₂).takeWhile p = l₁ ++ l₂.takeWhile p := by
  induction l₁ with
  | nil => rfl
  | cons c t ih =>
    have hc : p c = true := h c (List.mem_cons_self c t)
    simp only [List.cons_append, List.takeWhile_cons, hc, if_true,
      ih fun x hx => h x (List.mem_cons_of_mem c hx)]

theorem dropWhile_append_of_all {p : Char → Bool} {l₁ : List Char} (l₂ : List Char)
    (h : ∀ c ∈ l₁, p c = true) :
    (l₁ ++ l₂).dropWhile p = l₂.dropWhile p := by
  induction l₁ with
  | nil => rfl
  | cons c t ih =>
    have hc : p c = true := h c (List.mem_cons_self c t)
    simp only [List.cons_append, List.dropWhile_cons, hc, if_true,
      ih fun x hx => h x (List.mem_cons_of_mem c hx)]

theorem takeWhile_cons_of_neg {p : Char → Bool} {c : Char} (t : List Char)
    (h : p c = false) : (c :: t).takeWhile p = [] := by
  simp [List.takeWhile_cons, h]

theorem dropWhile_cons_of_neg {p : Char → Bool} {c : Char} (t : List Char)
    (h : p c = false) : (c :: t).dropWhile p = c :: t := by
  simp [List.dropWhile_cons, h]

theorem dropWhile_eq_self_of_all_neg {p : Char → Bool} {l : List Char}
    (h : ∀ c ∈ l, p c = false) : l.dropWhile p = l := by
  cases l with
  | nil => rfl
  | cons c t => exact dropWhile_cons_of_neg t (h c (List.mem_cons_self c t))

theorem dropWhile_head_neg {p : Char → Bool} {l : List Char} {c : Char} {t : List Char}
    (h : l.dropWhile p = c :: t) : p c = false := by
  induction l with
  | nil => cases h
  | cons a l ih =>
    by_cases ha : p a = true
    · exact ih (by simpa [List.dropWhile_cons, ha] using h)
    · rw [List.dropWhile_cons, if_neg (by simp [ha])] at h
      cases h
      simpa using ha

theorem dropWhile_append_singleton_ne_nil {p : Char → Bool} {a : Char} (l : List Char)
    (h : p a = false) : (l ++ [a]).dropWhile p ≠ [] := by
  induction l with
  | nil => simp [List.dropWhile_cons, h]
  | cons c t ih =>
    by_cases hc : p c = true
    · simpa [List.dropWhile_cons, hc] using ih
    · simp [List.dropWhile_cons, hc]

/-! ## Trimming -/

theorem trim_eq_self_of_all_word {l : List Char} (h : ∀ c ∈ l, isWordChar c = true) :
    trim l = l := by
  have h1 : l.dropWhile isJsWs = l :=
    dropWhile_eq_self_of_all_neg fun c hc => word_not_ws (h c hc)
  have h2 : l.reverse.dropWhile isJsWs = l.reverse :=
    dropWhile_eq_self_of_all_neg fun c hc => word_not_ws (h c (List.mem_reverse.mp hc))
  simp [trim, h1, h2]

theorem trim_cons_ne_nil {c : Char} (rest : List Char) (h : isJsWs c = false) :
    trim (c :: rest) ≠ [] := by
  have h1 : (c :: rest).dropWhile isJsWs = c :: rest := dropWhile_cons_of_neg rest h
  have h2 : (rest.reverse ++ [c]).dropWhile isJsWs ≠ [] :=
    dropWhile_append_singleton_ne_nil rest.reverse h
  simp only [trim, h1, List.reverse_cons, ne_eq, List.reverse_eq_nil_iff]
  exact h2

/-! ## The closed form of the line regex -/

theorem sepBTrev_eq (sepRev rest : List Char) :
    sepBTrev sepRev rest =
      if sepRev ≠ [] ∧ rest.all (fun c => !(isLineTerm c)) = true
      then some rest else none := by
  induction sepRev generalizing rest with
  | nil => simp [sepBTrev]
  | cons c tail ih =>
    by_cases h : rest.all (fun c => !(isLineTerm c)) = true
    · simp [sepBTrev, h]
    · have hf : rest.all (fun c => !(isLineTerm c)) = false := Bool.eq_false_iff.mpr h
      have hfalse : (c :: rest).all (fun c => !(isLineTerm c)) = false := by
        simp [List.all_cons, hf]
      simp [sepBTrev, h, ih, hfalse]

/-- Closed form of the match `^([^\W]*)\W+(.*)$` on a single line: group 1 is
the maximal word-character prefix, group 2 is what remains after the maximal
non-word run that follows; the match succeeds exactly when that non-word run
is non-empty and group 2 contains no line terminator. -/
theorem execLineRegex_eq (s : List Char) :
    execLineRegex s =
      (if s.dropWhile isWordChar ≠ [] ∧
          ((s.dropWhile isWordChar).dropWhile (fun c => !(isWordChar c))).all
            (fun c => !(isLineTerm c)) = true
       then some (s.takeWhile isWordChar,
                  (s.dropWhile isWordChar).dropWhile (fun c => !(isWordChar c)))
       else none) := by
  unfold execLineRegex
  dsimp only
  rw [sepBTrev_eq]
  have hsep : ((s.dropWhile isWordChar).takeWhile (fun c => !(isWordChar c))).reverse ≠ [] ↔
      s.dropWhile isWordChar ≠ [] := by
    rw [ne_eq, List.reverse_eq_nil_iff]
    cases hr : s.dropWhile isWordChar with
    | nil => simp
    | cons c t =>
      have hc : isWordChar c = false := dropWhile_head_neg hr
      simp [List.takeWhile_cons, hc]
  by_cases hcond : s.dropWhile isWordChar ≠ [] ∧
      ((s.dropWhile isWordChar).dropWhile (fun c => !(isWordChar c))).all
        (fun c => !(isLineTerm c)) = true
  · rw [if_pos ⟨hsep.mpr hcond.1, hcond.2⟩, if_pos hcond]
  · rw [if_neg (by rw [hsep]; exact hcond), if_neg hcond]

/-- Closed form of one parsed line: the status is the maximal word-character
prefix (trimming does not change it), the path is the remainder after the
maximal non-word run, trimmed; the line is accepted exactly when the non-word
run exists, the remainder is terminator-free, and status and trimmed path are
non-empty. -/
theorem lineToEntry_eq (l : List Char) :
    lineToEntry l =
      if (l.dropWhile isWordChar ≠ [] ∧
          ((l.dropWhile isWordChar).dropWhile (fun c => !(isWordChar c))).all
            (fun c => !(isLineTerm c)) = true) ∧
         l.takeWhile isWordChar ≠ [] ∧
         trim ((l.dropWhile isWordChar).dropWhile (fun c => !(isWordChar c))) ≠ []
      then some (trim ((l.dropWhile isWordChar).dropWhile (fun c => !(isWordChar c))),
                 l.takeWhile isWordChar)
      else none := by
  have htw : trim (l.takeWhile isWordChar) = l.takeWhile isWordChar :=
    trim_eq_self_of_all_word fun c hc => List.mem_takeWhile_imp hc
  unfold lineToEntry
  rw [execLineRegex_eq]
  by_cases h1 : l.dropWhile isWordChar ≠ [] ∧
      ((l.dropWhile isWordChar).dropWhile (fun c => !(isWordChar c))).all
        (fun c => !(isLineTerm c)) = true
  · rw [if_pos h1]
    dsimp only
    rw [htw]
    by_cases h2 : l.takeWhile isWordChar ≠ [] ∧
        trim ((l.dropWhile isWordChar).dropWhile (fun c => !(isWordChar c))) ≠ []
    · rw [if_pos h2, if_pos ⟨h1, h2⟩]
    · rw [if_neg h2, if_neg fun hh => h2 hh.2]
  · rw [if_neg h1, if_neg fun hh => h1 hh.1]

/-! ## Map lemmas: keys, first-seen order, last-write-wins -/

theorem contains_true_iff {l : List Path} {p : Path} : l.contains p = true ↔ p ∈ l :=
  List.elem_iff

theorem contains_false_iff {l : List Path} {p : Path} : l.contains p = false ↔ p ∉ l := by
  rw [Bool.eq_false_iff, ne_eq, contains_true_iff]

theorem any_key_iff (m : Diff) (p : Path) :
    m.any (fun e => e.1 == p) = true ↔ p ∈ keys m := by
  rw [List.any_eq_true]
  unfold keys
  rw [List.mem_map]
  constructor
  · rintro ⟨e, he, hbe⟩
    exact ⟨e, he, beq_iff_eq.mp hbe⟩
  · rintro ⟨e, he, hbe⟩
    exact ⟨e, he, beq_iff_eq.mpr hbe⟩

theorem keys_mapSet_mem {m : Diff} {p : Path} (s : Status) (h : p ∈ keys m) :
    keys (mapSet m p s) = keys m := by
  unfold mapSet
  rw [if_pos ((any_key_iff m p).mpr h)]
  unfold keys
  rw [List.map_map]
  apply List.map_congr_left
  intro e _
  by_cases hc : e.1 = p
  · simp [Function.comp, hc]
  · simp [Function.comp, beq_iff_eq, hc]

theorem keys_mapSet_not_mem {m : Diff} {p : Path} (s : Status) (h : p ∉ keys m) :
    keys (mapSet m p s) = keys m ++ [p] := by
  unfold mapSet
  rw [if_neg fun hh => h ((any_key_iff m p).mp hh)]
  simp [keys]

theorem keys_mapSet_nodup {m : Diff} {p : Path} (s : Status) (h : (keys m).Nodup) :
    (keys (mapSet m p s)).Nodup := by
  by_cases hm : p ∈ keys m
  · rw [keys_mapSet_mem s hm]; exact h
  · rw [keys_mapSet_not_mem s hm]
    simp [List.nodup_append, h, hm]

theorem dedupFirstAux_cons_mem {seen : List Path} {p : Path} (l : List Path)
    (h : seen.contains p = true) : dedupFirstAux seen (p :: l) = dedupFirstAux seen l := by
  have hp : p ∈ seen := contains_true_iff.mp h
  simp [dedupFirstAux, hp]

theorem dedupFirstAux_cons_not_mem {seen : List Path} {p : Path} (l : List Path)
    (h : seen.contains p = false) :
    dedupFirstAux seen (p :: l) = p :: dedupFirstAux (p :: seen) l := by
  have hp : p ∉ seen := contains_false_iff.mp h
  simp [dedupFirstAux, hp]

theorem dedupFirstAux_congr (l : List Path) : ∀ s₁ s₂ : List Path,
    (∀ x, x ∈ s₁ ↔ x ∈ s₂) → dedupFirstAux s₁ l = dedupFirstAux s₂ l := by
  induction l with
  | nil => intro s₁ s₂ _; rfl
  | cons p rest ih =>
    intro s₁ s₂ h
    by_cases hm : p ∈ s₁
    · rw [dedupFirstAux_cons_mem rest (contains_true_iff.mpr hm),
          dedupFirstAux_cons_mem rest (contains_true_iff.mpr ((h p).mp hm))]
      exact ih s₁ s₂ h
    · rw [dedupFirstAux_cons_not_mem rest (contains_false_iff.mpr hm),
          dedupFirstAux_cons_not_mem rest (contains_false_iff.mpr fun hx => hm ((h p).mpr hx))]
      exact congrArg (List.cons p) (ih (p :: s₁) (p :: s₂) fun x => by simp [h x])

theorem keys_foldl (pairs : List (Path × Status)) : ∀ acc : Diff,
    keys (pairs.foldl (fun m e => mapSet m e.1 e.2) acc) =
      keys acc ++ dedupFirstAux (keys acc) (pairs.map Prod.fst) := by
  induction pairs with
  | nil => intro acc; simp [dedupFirstAux]
  | cons e rest ih =>
    intro acc
    rw [List.foldl_cons, List.map_cons, ih]
    by_cases hm : e.1 ∈ keys acc
    · rw [keys_mapSet_mem e.2 hm,
          dedupFirstAux_cons_mem _ (contains_true_iff.mpr hm)]
    · rw [keys_mapSet_not_mem e.2 hm,
          dedupFirstAux_cons_not_mem _ (contains_false_iff.mpr hm),
          List.append_cons (keys acc) e.1 (dedupFirstAux (e.1 :: keys acc) (rest.map Prod.fst))]
      exact congrArg (fun z => (keys acc ++ [e.1]) ++ z)
        (dedupFirstAux_congr _ _ _ fun x => by simp [or_comm])

theorem dedupFirstAux_nodup (l : List Path) : ∀ seen : List Path,
    (dedupFirstAux seen l).Nodup ∧ ∀ x ∈ dedupFirstAux seen l, x ∉ seen := by
  induction l with
  | nil => intro seen; simp [dedupFirstAux]
  | cons p rest ih =>
    intro seen
    by_cases hp : p ∈ seen
    · rw [dedupFirstAux_cons_mem rest (contains_true_iff.mpr hp)]
      exact ih seen
    · rw [dedupFirstAux_cons_not_mem rest (contains_false_iff.mpr hp)]
      obtain ⟨hnd, hmem⟩ := ih (p :: seen)
      refine ⟨List.nodup_cons.mpr ⟨fun hx => (hmem p hx) (List.mem_cons_self p seen), hnd⟩, ?_⟩
      intro x hx
      rcases List.mem_cons.mp hx with hx | hx
      · exact hx ▸ hp
      · exact fun hs => hmem x hx (List.mem_cons_of_mem p hs)

theorem keys_newMap (pairs : List (Path × Status)) :
    keys (newMap pairs) = dedupFirst (pairs.map Prod.fst) := by
  unfold newMap dedupFirst
  rw [keys_foldl]
  simp [keys]

theorem keys_newMap_nodup (pairs : List (Path × Status)) :
    (keys (newMap pairs)).Nodup := by
  rw [keys_newMap]
  exact (dedupFirstAux_nodup _ _).1

theorem foldl_append_of_nodup (l : List (Path × Status)) : ∀ acc : Diff,
    (keys acc ++ keys l).Nodup → l.foldl (fun m e => mapSet m e.1 e.2) acc = acc ++ l := by
  induction l with
  | nil => intro acc _; simp
  | cons e rest ih =>
    intro acc hnd
    have hp : e.1 ∉ keys acc :=
      fun hin => (List.disjoint_of_nodup_append hnd) hin (by simp [keys])
    rw [List.foldl_cons]
    have hstep : mapSet acc e.1 e.2 = acc ++ [e] := by
      unfold mapSet
      rw [if_neg fun hh => hp ((any_key_iff acc e.1).mp hh)]
    have hnd2 : (keys (acc ++ [e]) ++ keys rest).Nodup := by
      have heq : keys (acc ++ [e]) ++ keys rest = keys acc ++ keys (e :: rest) := by
        simp [keys]
      rw [heq]
      exact hnd
    rw [hstep, ih (acc ++ [e]) hnd2]
    simp

theorem newMap_eq_self {l : Diff} (h : (keys l).Nodup) : newMap l = l := by
  unfold newMap
  rw [foldl_append_of_nodup l [] (by simpa [keys] using h)]
  simp

theorem find?_map_set_eq {m : Diff} {q : Path} {s : Status}
    (hany : m.any (fun e => e.1 == q) = true) :
    ((m.map (fun e => if e.1 == q then (q, s) else e)).find?
        (fun e => e.1 == q)).map Prod.snd = some s := by
  induction m with
  | nil => cases hany
  | cons e t ih =>
    by_cases he : e.1 = q
    · have heb : (e.1 == q) = true := beq_iff_eq.mpr he
      rw [List.map_cons, heb, if_pos rfl,
          List.find?_cons_of_pos _ (by simp)]
      rfl
    · have heb : (e.1 == q) = false := beq_eq_false_iff_ne.mpr he
      have ht : t.any (fun e => e.1 == q) = true := by
        simpa [List.any_cons, heb] using hany
      rw [List.map_cons, heb, if_neg (by simp),
          List.find?_cons_of_neg _ (by simp [heb])]
      exact ih ht

theorem find?_map_set_ne {m : Diff} {q : Path} {s : Status} {p : Path} (hqp : q ≠ p) :
    (m.map (fun e => if e.1 == q then (q, s) else e)).find? (fun e => e.1 == p) =
      m.find? (fun e => e.1 == p) := by
  induction m with
  | nil => rfl
  | cons e t ih =>
    by_cases he : e.1 = q
    · have heb : (e.1 == q) = true := beq_iff_eq.mpr he
      have hep : (e.1 == p) = false := beq_eq_false_iff_ne.mpr (he ▸ hqp)
      have hqpb : ((q : Path) == p) = false := beq_eq_false_iff_ne.mpr hqp
      rw [List.map_cons, heb, if_pos rfl,
          List.find?_cons_of_neg _ (by simp [hqpb]),
          List.find?_cons_of_neg _ (by simp [hep])]
      exact ih
    · have heb : (e.1 == q) = false := beq_eq_false_iff_ne.mpr he
      rw [List.map_cons, heb, if_neg (by simp)]
      by_cases hep : (e.1 == p) = true
      · rw [List.find?_cons_of_pos _ (by simp [hep]),
            List.find?_cons_of_pos _ (by simp [hep])]
      · rw [List.find?_cons_of_neg _ (by simp [hep]),
            List.find?_cons_of_neg _ (by simp [hep])]
        exact ih

theorem find?_key_none {m : Diff} {q : Path}
    (hany : m.any (fun e => e.1 == q) = false) :
    m.find? (fun e => e.1 == q) = none := by
  rw [List.find?_eq_none]
  intro e he
  have := (List.any_eq_false.mp hany) e he
  simpa using this

/-- `map.set` and `map.get`: setting key `q` makes `get q` return the new
value and leaves every other key unchanged. -/
theorem get_mapSet (m : Diff) (q : Path) (s : Status) (p : Path) :
    Diff.get (mapSet m q s) p = if q = p then some s else Diff.get m p := by
  unfold mapSet Diff.get
  by_cases hany : m.any (fun e => e.1 == q) = true
  · rw [if_pos hany]
    by_cases hqp : q = p
    · subst hqp
      rw [if_pos rfl]
      exact find?_map_set_eq hany
    · rw [if_neg hqp, find?_map_set_ne hqp]
  · rw [if_neg hany]
    have hanyf : m.any (fun e => e.1 == q) = false := Bool.eq_false_iff.mpr hany
    by_cases hqp : q = p
    · subst hqp
      rw [if_pos rfl, List.find?_append, find?_key_none hanyf]
      simp
    · have hqpb : ((q : Path) == p) = false := beq_eq_false_iff_ne.mpr hqp
      rw [if_neg hqp, List.find?_append]
      have h1 : ([((q : Path), s)].find? (fun e => e.1 == p)) = none := by
        simp [List.find?, hqpb]
      rw [h1]
      cases m.find? (fun e => e.1 == p) <;> rfl

theorem get_foldl (pairs : List (Path × Status)) : ∀ (acc : Diff) (p : Path),
    Diff.get (pairs.foldl (fun m e => mapSet m e.1 e.2) acc) p =
      (match lastVal pairs p with
       | some v => some v
       | none => Diff.get acc p) := by
  induction pairs with
  | nil => intro acc p; rfl
  | cons e rest ih =>
    intro acc p
    obtain ⟨q, s⟩ := e
    rw [List.foldl_cons]
    dsimp only
    rw [ih (mapSet acc q s) p]
    cases hl : lastVal rest p with
    | some v => simp only [lastVal, hl]
    | none =>
      simp only [lastVal, hl]
      rw [get_mapSet]
      by_cases hqp : q = p
      · have hb : (q == p) = true := beq_iff_eq.mpr hqp
        rw [if_pos hqp, hb]
        rfl
      · have hb : (q == p) = false := beq_eq_false_iff_ne.mpr hqp
        rw [if_neg hqp, hb]
        rfl

/-- `newMap` realizes last-write-wins: the stored value of every path is the
value of the last pair carrying it. -/
theorem get_newMap (pairs : List (Path × Status)) (p : Path) :
    Diff.get (newMap pairs) p = lastVal pairs p := by
  unfold newMap
  rw [get_foldl]
  cases hl : lastVal pairs p with
  | some v => rfl
  | none => rfl

/-! ## Parse-loop lemmas -/

theorem parseLines_nodup : ∀ (ls : List (List Char)) (m : Diff),
    (keys m).Nodup → ∀ d, parseLines m ls = .ok d → (keys d).Nodup := by
  intro ls
  induction ls with
  | nil =>
    intro m hm d h
    cases h
    exact hm
  | cons l ls ih =>
    intro m hm d h
    by_cases hl : l = []
    · rw [parseLines, if_pos hl] at h
      exact ih m hm d h
    · rw [parseLines, if_neg hl] at h
      cases hE : lineToEntry l with
      | some e =>
        rw [hE] at h
        exact ih (mapSet m e.1 e.2) (keys_mapSet_nodup e.2 hm) d h
      | none =>
        rw [hE] at h
        cases h

theorem parseLines_error_of_bad : ∀ (ls : List (List Char)) (m : Diff),
    (∃ l ∈ ls, l ≠ [] ∧ lineToEntry l = none) →
    ∃ l2, l2 ≠ [] ∧ lineToEntry l2 = none ∧ parseLines m ls = .error (.invalidLine l2) := by
  intro ls
  induction ls with
  | nil =>
    intro m h
    obtain ⟨l, hl, _⟩ := h
    cases hl
  | cons l ls ih =>
    intro m h
    by_cases hl : l = []
    · obtain ⟨l2, hmem, hne, hnone⟩ := h
      have hml : l2 ∈ ls := by
        rcases List.mem_cons.mp hmem with hx | hx
        · exact absurd (hx ▸ hl) hne
        · exact hx
      obtain ⟨l3, h3⟩ := ih m ⟨l2, hml, hne, hnone⟩
      exact ⟨l3, h3.1, h3.2.1, by rw [parseLines, if_pos hl]; exact h3.2.2⟩
    · cases hE : lineToEntry l with
      | some e =>
        obtain ⟨l2, hmem, hne, hnone⟩ := h
        have hml : l2 ∈ ls := by
          rcases List.mem_cons.mp hmem with hx | hx
          · rw [hx] at hnone
            rw [hnone] at hE
            cases hE
          · exact hx
        obtain ⟨l3, h3⟩ := ih (mapSet m e.1 e.2) ⟨l2, hml, hne, hnone⟩
        exact ⟨l3, h3.1, h3.2.1, by rw [parseLines, if_neg hl, hE]; exact h3.2.2⟩
      | none =>
        exact ⟨l, hl, hE, by rw [parseLines, if_neg hl, hE]⟩

theorem parseLines_ok_of_all_good : ∀ (ls : List (List Char)) (m : Diff),
    (∀ l ∈ ls, l ≠ [] → (lineToEntry l).isSome = true) →
    parseLines m ls =
      .ok ((ls.filterMap (fun l => if l = [] then none else lineToEntry l)).foldl
        (fun m e => mapSet m e.1 e.2) m) := by
  intro ls
  induction ls with
  | nil => intro m _; rfl
  | cons l ls ih =>
    intro m h
    by_cases hl : l = []
    · rw [parseLines, if_pos hl, List.filterMap_cons, if_pos hl]
      exact ih m fun x hx => h x (List.mem_cons_of_mem l hx)
    · have hs : (lineToEntry l).isSome = true := h l (List.mem_cons_self l ls) hl
      cases hE : lineToEntry l with
      | some e =>
        rw [parseLines, if_neg hl, hE, List.filterMap_cons, if_neg hl, hE,
            List.foldl_cons]
        exact ih (mapSet m e.1 e.2) fun x hx => h x (List.mem_cons_of_mem l hx)
      | none =>
        rw [hE] at hs
        cases hs

/-! ## Claim theorems -/

/-- C1 (counterexample): the spec says the status token is the leading run of
*non-word* characters and the path is the remainder trimmed.  On `A<TAB>foo`
the parser extracts the status `A`, which is not a run of non-word characters
(that run is empty); and on `M<TAB>.gitignore` it extracts the path
`gitignore`, not the trimmed remainder `.gitignore` — the greedy non-word
separator swallows the leading dot. -/
theorem line_grammar_cex :
    lineToEntry "A\tfoo".data = some ("foo".data, "A".data) ∧
    ("A\tfoo".data.takeWhile fun c => !(isWordChar c)) ≠ "A".data ∧
    lineToEntry "M\t.gitignore".data = some ("gitignore".data, "M".data) ∧
    "gitignore".data ≠ trim ".gitignore".data := by
  exact ⟨rfl, by decide, rfl, by decide⟩

/-- C1 (amended): for every input line, the parser extracts the status token
as the contiguous leading run of *word* characters; the separator is the
maximal following run of non-word characters (which absorbs any leading
non-word characters of the path); the path is the remainder trimmed; the line
is accepted exactly when the separator run exists, the remainder is free of
line terminators, and both trimmed tokens are non-empty. -/
theorem line_grammar (l : List Char) :
    lineToEntry l =
      if (l.dropWhile isWordChar ≠ [] ∧
          ((l.dropWhile isWordChar).dropWhile (fun c => !(isWordChar c))).all
            (fun c => !(isLineTerm c)) = true) ∧
         l.takeWhile isWordChar ≠ [] ∧
         trim ((l.dropWhile isWordChar).dropWhile (fun c => !(isWordChar c))) ≠ []
      then some (trim ((l.dropWhile isWordChar).dropWhile (fun c => !(isWordChar c))),
                 l.takeWhile isWordChar)
      else none :=
  lineToEntry_eq l

/-- C4: whenever the input contains a non-empty line from which no entry can
be extracted, `parse` fails with the malformed-line error carrying an
offending raw line, and returns no diff at all (the error is the only
outcome). -/
theorem parse_malformed_line (text l : List Char) (h1 : l ∈ splitNl text)
    (h2 : l ≠ []) (h3 : lineToEntry l = none) :
    ∃ l2, l2 ≠ [] ∧ lineToEntry l2 = none ∧
      parse text = .error (.invalidLine l2) := by
  unfold parse
  exact parseLines_error_of_bad (splitNl text) [] ⟨l, h1, h2, h3⟩

/-- C4 (witness): the line `garbage` has no separator, so `parse` fails with
the malformed-line error identifying `garbage`. -/
theorem parse_malformed_line_witness :
    (∃ l2, l2 ≠ [] ∧ lineToEntry l2 = none ∧
      parse "garbage".data = .error (.invalidLine l2)) ∧
    parse "garbage".data = .error (.invalidLine "garbage".data) := by
  constructor
  · exact parse_malformed_line "garbage".data "garbage".data (by decide) (by decide) (by decide)
  · rfl

/-- C9 (counterexample): the spec says multi-character status tokens are
rejected; the parser accepts the two-letter token `AB` and stores it
verbatim. -/
theorem status_passthrough_cex :
    parse "AB\tfoo".data = .ok [("foo".data, "AB".data)] ∧
    ("AB".data).length = 2 := by
  exact ⟨rfl, rfl⟩

/-- C9 (amended): every non-empty run of word characters — single-letter
codes beyond the six named kinds, but also multi-character runs, digits and
underscores — is accepted as a status token and round-trips verbatim into the
resulting diff; a line is rejected only when its status run or its path is
empty (or the remainder holds a line terminator). -/
theorem status_passthrough (st : List Char) (c : Char) (rest : List Char)
    (h1 : st ≠ []) (h2 : ∀ x ∈ st, isWordChar x = true) (h3 : isWordChar c = true)
    (h4 : (c :: rest).all (fun x => !(isLineTerm x)) = true) :
    parse (st ++ '\t' :: c :: rest) = .ok [(trim (c :: rest), st)] := by
  have hnl : ∀ x ∈ st ++ '\t' :: c :: rest, x ≠ '\n' := by
    intro x hx
    rcases List.mem_append.mp hx with hx | hx
    · exact word_ne_newline (h2 x hx)
    · rcases List.mem_cons.mp hx with hx | hx
      · subst hx; decide
      · have hterm : isLineTerm x = false := by
          simpa using List.all_eq_true.mp h4 x hx
        intro hxe
        subst hxe
        simp [isLineTerm] at hterm
  have hsplit : splitNl (st ++ '\t' :: c :: rest) = [st ++ '\t' :: c :: rest] :=
    splitNl_single hnl
  have hne : st ++ '\t' :: c :: rest ≠ [] := by
    cases st with
    | nil => exact absurd rfl h1
    | cons a t => simp
  have hw : (st ++ '\t' :: c :: rest).takeWhile isWordChar = st := by
    rw [takeWhile_append_of_all _ h2, takeWhile_cons_of_neg _ (by decide)]
    simp
  have hr : (st ++ '\t' :: c :: rest).dropWhile isWordChar = '\t' :: c :: rest := by
    rw [dropWhile_append_of_all _ h2]
    exact dropWhile_cons_of_neg _ (by decide)
  have hrest : ('\t' :: c :: rest).dropWhile (fun x => !(isWordChar x)) = c :: rest := by
    rw [List.dropWhile_cons, if_pos (by decide)]
    exact dropWhile_cons_of_neg _ (by simp [h3])
  have hentry : lineToEntry (st ++ '\t' :: c :: rest) = some (trim (c :: rest), st) := by
    rw [lineToEntry_eq, hr, hrest, hw,
        if_pos ⟨⟨by simp, h4⟩, h1, trim_cons_ne_nil rest (word_not_ws h3)⟩]
  unfold parse
  rw [hsplit, parseLines, if_neg hne, hentry]
  rfl

/-- C9 (witness): the two-letter token `AB` and the unnamed single letter `T`
both parse and round-trip verbatim. -/
theorem status_passthrough_witness :
    parse ("AB".data ++ '\t' :: 'f' :: "oo".data) = .ok [(trim ('f' :: "oo".data), "AB".data)] ∧
    parse ("T".data ++ '\t' :: 'f' :: "oo".data) = .ok [(trim ('f' :: "oo".data), "T".data)] :=
  ⟨status_passthrough "AB".data 'f' "oo".data (by decide) (by decide) (by decide) (by decide),
   status_passthrough "T".data 'f' "oo".data (by decide) (by decide) (by decide) (by decide)⟩

/-- C10: a non-empty line consisting only of whitespace is not skipped: the
regex matches it with an empty status capture, which is falsy, so `parse`
throws the malformed-line error carrying that line.  Only lines that are the
empty string — such as the one produced by a leading newline — are skipped. -/
theorem whitespace_line_error :
    (∀ l : List Char, l ≠ [] → (∀ c ∈ l, isJsWs c = true) → '\n' ∉ l →
      parse l = .error (.invalidLine l)) ∧
    (∀ t : List Char, parse ('\n' :: t) = parse t) := by
  constructor
  · intro l hne hws hnl
    have hsplit : splitNl l = [l] :=
      splitNl_single fun c hc he => hnl (he ▸ hc)
    have hentry : lineToEntry l = none := by
      rw [lineToEntry_eq]
      rw [if_neg ?_]
      intro hcond
      have hw : l.takeWhile isWordChar = [] := by
        cases l with
        | nil => rfl
        | cons a t =>
          exact takeWhile_cons_of_neg t (ws_not_word (hws a (List.mem_cons_self a t)))
      exact hcond.2.1 hw
    unfold parse
    rw [hsplit, parseLines, if_neg hne, hentry]
  · intro t
    unfold parse
    rw [splitNl_cons_newline, parseLines, if_pos rfl]

/-- C10 (witness): a line of two spaces raises the malformed-line error, and
a leading newline is skipped as a blank line. -/
theorem whitespace_line_error_witness :
    parse "  ".data = .error (.invalidLine "  ".data) ∧
    parse ('\n' :: "A\tb".data) = parse "A\tb".data :=
  ⟨whitespace_line_error.1 "  ".data (by decide) (by decide) (by decide),
   whitespace_line_error.2 "A\tb".data⟩

/-- C2 (counterexample): the spec says the size equals the number of
non-blank status/path lines.  The text `A<TAB>foo\nM<TAB>foo` has two such
lines but the duplicate path collapses, so the parsed diff has size 1. -/
theorem parse_size_cex :
    parse "A\tfoo\nM\tfoo".data = .ok [("foo".data, "M".data)] ∧
    Diff.size [("foo".data, "M".data)] = 1 ∧
    validLineCount "A\tfoo\nM\tfoo".data = 2 := by
  exact ⟨rfl, rfl, rfl⟩

/-- C2 (amended): for text whose every non-blank line yields an entry, the
parsed diff is the map built from those entries in order, and its size is the
number of *distinct* paths among them (a repeated path collapses onto its
first position, keeping the last status). -/
theorem parse_size_distinct (t : List Char)
    (h : ∀ l ∈ splitNl t, l ≠ [] → (lineToEntry l).isSome = true) :
    parse t = .ok (newMap (lineEntries t)) ∧
    ∀ d, parse t = .ok d →
      Diff.size d = (dedupFirst ((lineEntries t).map Prod.fst)).length := by
  have hok : parse t = .ok (newMap (lineEntries t)) := by
    unfold parse lineEntries newMap
    exact parseLines_ok_of_all_good (splitNl t) [] h
  refine ⟨hok, ?_⟩
  intro d hd
  rw [hok] at hd
  injection hd with hd
  subst hd
  have hlen : Diff.size (newMap (lineEntries t)) = (keys (newMap (lineEntries t))).length := by
    unfold Diff.size keys
    rw [List.length_map]
  rw [hlen, keys_newMap]

/-- C2 (witness): a two-line text with distinct paths parses to the expected
map, whose size is the number of distinct paths. -/
theorem parse_size_distinct_witness :
    parse "A\ta\nM\tb".data = .ok (newMap (lineEntries "A\ta\nM\tb".data)) ∧
    ∀ d, parse "A\ta\nM\tb".data = .ok d →
      Diff.size d = (dedupFirst ((lineEntries "A\ta\nM\tb".data).map Prod.fst)).length :=
  parse_size_distinct "A\ta\nM\tb".data (by decide)

/-- C7: in every map built by the constructor (and hence in every parsed
diff) no two entries share a path: the key sequence is the input path
sequence deduplicated to first occurrences, the stored status of each path is
the last one written, and every diff `parse` returns has pairwise-distinct
paths. -/
theorem diff_unique_paths (pairs : List (Path × Status)) :
    (keys (newMap pairs)).Nodup ∧
    keys (newMap pairs) = dedupFirst (pairs.map Prod.fst) ∧
    (∀ p, Diff.get (newMap pairs) p = lastVal pairs p) ∧
    (∀ t d, parse t = .ok d → (keys d).Nodup) := by
  refine ⟨keys_newMap_nodup pairs, keys_newMap pairs, fun p => get_newMap pairs p, ?_⟩
  intro t d h
  exact parseLines_nodup (splitNl t) [] (by simp [keys]) d h

/-- A sequence with a duplicated path, used by the C7 witness. -/
def pairsDup : List (Path × Status) :=
  [("a".data, "A".data), ("b".data, "M".data), ("a".data, "D".data)]

/-- C7 (witness): constructing from a duplicate-path sequence keeps `a` in
first position with its last status `D`, and a parsed diff has unique
paths. -/
theorem diff_unique_paths_witness :
    (keys (newMap pairsDup)).Nodup ∧
    keys (newMap pairsDup) = dedupFirst (pairsDup.map Prod.fst) ∧
    Diff.get (newMap pairsDup) "a".data = lastVal pairsDup "a".data ∧
    (keys [("x".data, "A".data)]).Nodup :=
  ⟨(diff_unique_paths pairsDup).1,
   (diff_unique_paths pairsDup).2.1,
   (diff_unique_paths pairsDup).2.2.1 "a".data,
   (diff_unique_paths pairsDup).2.2.2 "A\tx".data [("x".data, "A".data)] rfl⟩

/-! Helper equivalences for the filter predicate. -/

theorem cond_path_iff (globM : List Path → Path → Bool)
    (pathsOpt : Option (List Path)) (x : Path) :
    ((match pathsOpt with
      | some _ => globM (pathsOpt.getD []) x
      | none => true) = true) ↔
    (∀ pats, pathsOpt = some pats → globM pats x = true) := by
  cases pathsOpt with
  | none => simp
  | some pats => simp

theorem cond_status_iff (statusesOpt : Option (List Status)) (x : Status) :
    ((match statusesOpt with
      | some statuses => statuses.contains x
      | none => true) = true) ↔
    (∀ sts, statusesOpt = some sts → x ∈ sts) := by
  cases statusesOpt with
  | none => simp
  | some sts => simp [contains_true_iff]

/-- C5: `filter` returns a new diff holding exactly the entries that pass
both optional constraints — the path must satisfy the matcher compiled from
the pattern list when one is provided, and the status must be a member of the
status list when one is provided; an omitted axis constrains nothing, and
omitting both returns the diff unchanged.  (The model is purely functional,
so the source diff is never mutated by construction.) -/
theorem filter_semantics (globM : List Path → Path → Bool) (d : Diff)
    (pathsOpt : Option (List Path)) (statusesOpt : Option (List Status))
    (hnd : (keys d).Nodup) :
    (∀ e : Path × Status, e ∈ Diff.filter globM d pathsOpt statusesOpt ↔
       e ∈ d ∧ (∀ pats, pathsOpt = some pats → globM pats e.1 = true) ∧
       (∀ sts, statusesOpt = some sts → e.2 ∈ sts)) ∧
    Diff.filter globM d none none = d := by
  constructor
  · intro e
    unfold Diff.filter
    dsimp only
    have hfnd : (keys (List.filter (fun e =>
        (match pathsOpt with
         | some _ => globM (pathsOpt.getD []) e.1
         | none => true) &&
        (match statusesOpt with
         | some statuses => statuses.contains e.2
         | none => true)) d)).Nodup :=
      List.Nodup.sublist ((List.filter_sublist d).map Prod.fst) hnd
    rw [newMap_eq_self hfnd, List.mem_filter, Bool.and_eq_true]
    exact and_congr Iff.rfl
      (and_congr (cond_path_iff globM pathsOpt e.1) (cond_status_iff statusesOpt e.2))
  · unfold Diff.filter
    dsimp only
    simp only [Bool.and_self]
    rw [List.filter_true, newMap_eq_self hnd]

/-- C5 (witness): filtering with no constraints returns the diff unchanged,
and a path-constrained membership instance evaluates as characterized. -/
theorem filter_semantics_witness :
    Diff.filter globLit diffAB none none = diffAB ∧
    (("a".data, "A".data) ∈ Diff.filter globLit diffAB (some ["a".data]) none ↔
      ("a".data, "A".data) ∈ diffAB ∧
      (∀ pats, (some ["a".data] : Option (List Path)) = some pats →
        globLit pats "a".data = true) ∧
      (∀ sts, (none : Option (List Status)) = some sts → "A".data ∈ sts)) :=
  ⟨(filter_semantics globLit diffAB none none (by decide)).2,
   (filter_semantics globLit diffAB (some ["a".data]) none (by decide)).1
     ("a".data, "A".data)⟩

/-- Membership form of one `match` getter. -/
theorem any_status_iff (globM : List Path → Path → Bool) (d : Diff)
    (sel : PathSel) (st : Status) :
    ((d.any fun e => e.2 == st && globM (toArray sel) e.1) = true) ↔
      ∃ e ∈ d, e.2 = st ∧ globM (toArray sel) e.1 = true := by
  rw [List.any_eq_true]
  constructor
  · rintro ⟨e, he, hb⟩
    rw [Bool.and_eq_true] at hb
    exact ⟨e, he, beq_iff_eq.mp hb.1, hb.2⟩
  · rintro ⟨e, he, h1, h2⟩
    exact ⟨e, he, by rw [Bool.and_eq_true]; exact ⟨beq_iff_eq.mpr h1, h2⟩⟩

/-- C6: each boolean of the `match` view is true exactly when some entry has
the corresponding named status and a path accepted by the matcher compiled
from the selector; in particular every boolean is false when no entry's path
matches. -/
theorem match_semantics (globM : List Path → Path → Bool) (d : Diff) (sel : PathSel) :
    ((Diff.matchSel globM d sel).added = true ↔
      ∃ e ∈ d, e.2 = Status.Added ∧ globM (toArray sel) e.1 = true) ∧
    ((Diff.matchSel globM d sel).changed = true ↔
      ∃ e ∈ d, e.2 = Status.Changed ∧ globM (toArray sel) e.1 = true) ∧
    ((Diff.matchSel globM d sel).deleted = true ↔
      ∃ e ∈ d, e.2 = Status.Deleted ∧ globM (toArray sel) e.1 = true) ∧
    ((Diff.matchSel globM d sel).modified = true ↔
      ∃ e ∈ d, e.2 = Status.Modified ∧ globM (toArray sel) e.1 = true) ∧
    ((Diff.matchSel globM d sel).renamed = true ↔
      ∃ e ∈ d, e.2 = Status.Renamed ∧ globM (toArray sel) e.1 = true) ∧
    ((Diff.matchSel globM d sel).unknown = true ↔
      ∃ e ∈ d, e.2 = Status.Unknown ∧ globM (toArray sel) e.1 = true) ∧
    ((∀ e ∈ d, globM (toArray sel) e.1 = false) →
      Diff.matchSel globM d sel = ⟨false, false, false, false, false, false⟩) := by
  refine ⟨any_status_iff globM d sel Status.Added,
          any_status_iff globM d sel Status.Changed,
          any_status_iff globM d sel Status.Deleted,
          any_status_iff globM d sel Status.Modified,
          any_status_iff globM d sel Status.Renamed,
          any_status_iff globM d sel Status.Unknown, ?_⟩
  intro hnone
  have hf : ∀ st : Status, (d.any fun e => e.2 == st && globM (toArray sel) e.1) = false := by
    intro st
    rw [List.any_eq_false]
    intro e he
    simp [hnone e he]
  unfold Diff.matchSel
  dsimp only
  rw [hf Status.Added, hf Status.Changed, hf Status.Deleted,
      hf Status.Modified, hf Status.Renamed, hf Status.Unknown]

/-- C6 (witness): with a literal matcher and a selector matching no stored
path, every boolean of the view is false. -/
theorem match_semantics_witness :
    Diff.matchSel globLit diffAB (.one "z".data) = ⟨false, false, false, false, false, false⟩ :=
  (match_semantics globLit diffAB (.one "z".data)).2.2.2.2.2.2 (by decide)

/-- C3: when the failed command's diagnostic matches
`fatal: bad revision '<ref>'`, the diff operation raises the classified error
with name `GitDiffError`, the fixed code `BAD_REVISION`, and the message
`The ref does not exist: <ref>` carrying the extracted reference; every
failure whose diagnostic does not match (or that has no diagnostic at all) is
re-raised as the original error, unchanged. -/
theorem diffAsync_bad_revision (e : ExecError) :
    (∀ ref, e.stderr ≠ [] → execBadRev e.stderr = some ref →
      diffAsync (.error e) = .error (.gitDiff
        { name := errorName, code := badRevisionErrorCode,
          message := "The ref does not exist: ".data ++ ref })) ∧
    (execBadRev e.stderr = none → diffAsync (.error e) = .error (.exec e)) ∧
    (e.stderr = [] → diffAsync (.error e) = .error (.exec e)) := by
  refine ⟨?_, ?_, ?_⟩
  · intro ref hne hsome
    have hT : isErrorWithStderr e = true := by
      unfold isErrorWithStderr
      cases hs : e.stderr with
      | nil => exact absurd hs hne
      | cons a t => rfl
    have hg : throwGitDiffError e = some
        { name := errorName, code := badRevisionErrorCode,
          message := "The ref does not exist: ".data ++ ref } := by
      unfold throwGitDiffError
      rw [if_pos hT, hsome]
    simp only [diffAsync, hg]
  · intro hnone
    have hg : throwGitDiffError e = none := by
      unfold throwGitDiffError
      by_cases hT : isErrorWithStderr e = true
      · rw [if_pos hT, hnone]
      · rw [if_neg hT]
    simp only [diffAsync, hg]
  · intro hnil
    have hg : throwGitDiffError e = none := by
      unfold throwGitDiffError
      have hT : isErrorWithStderr e = false := by
        unfold isErrorWithStderr
        rw [hnil]
        rfl
      rw [if_neg (by rw [hT]; exact Bool.false_ne_true)]
    simp only [diffAsync, hg]

/-- C3 (witness): the canonical diagnostic `fatal: bad revision 'nope'`
yields the classified error whose reference is `nope`, embedded in the
message; a non-matching diagnostic is re-raised unchanged. -/
theorem diffAsync_bad_revision_witness :
    diffAsync (.error ⟨nopeDiag⟩) = .error (.gitDiff
      { name := errorName, code := badRevisionErrorCode,
        message := "The ref does not exist: nope".data }) ∧
    diffAsync (.error ⟨"some other failure".data⟩) =
      .error (.exec ⟨"some other failure".data⟩) := by
  constructor
  · exact (diffAsync_bad_revision ⟨nopeDiag⟩).1 "nope".data (by decide) (by rfl)
  · exact (diffAsync_bad_revision ⟨"some other failure".data⟩).2.1 (by rfl)

/-- C8 (counterexample): the spec says no external mutation after
construction can change the observed entries.  A diff constructed from a raw
`Map` aliases it: it observes no entries at construction, then after an
external `set` on the very map object that was passed in, it observes the new
entry. -/
theorem diff_alias_cex :
    (construct [[]] (.fromMap 0)).2 = 0 ∧
    observe (construct [[]] (.fromMap 0)).1 (construct [[]] (.fromMap 0)).2 = [] ∧
    observe (storeMapSet (construct [[]] (.fromMap 0)).1 0 "a".data "A".data)
      (construct [[]] (.fromMap 0)).2 = [("a".data, "A".data)] := by
  exact ⟨rfl, rfl, rfl⟩

theorem observe_concat (store : Store) (m : List (Path × Status)) :
    observe (store ++ [m]) store.length = m := by
  unfold observe
  induction store with
  | nil => rfl
  | cons a t ih => simp [ih]

/-- C8 (amended): a diff constructed from an iterable of pairs (or by
parsing, whose freshly built map never escapes) owns a newly allocated map:
it observes exactly the inserted entries, and mutating any map object that
existed before the construction leaves its observations unchanged.  Only
construction from a raw `Map` shares storage with the caller. -/
theorem diff_ownership (store : Store) (pairs : List (Path × Status)) (r : Nat)
    (p : Path) (s : Status) (hr : r < store.length) :
    observe (construct store (.fromIterable pairs)).1
      (construct store (.fromIterable pairs)).2 = newMap pairs ∧
    observe (storeMapSet (construct store (.fromIterable pairs)).1 r p s)
      (construct store (.fromIterable pairs)).2 = newMap pairs := by
  have hcon : construct store (.fromIterable pairs) = (store ++ [newMap pairs], store.length) :=
    rfl
  rw [hcon]
  refine ⟨observe_concat store (newMap pairs), ?_⟩
  unfold storeMapSet
  rw [List.set_append_left _ _ hr]
  have hlen : store.length =
      (store.set r (mapSet ((store ++ [newMap pairs]).getD r []) p s)).length := by
    rw [List.length_set]
  rw [hlen]
  exact observe_concat _ _

/-- C8 (witness): a diff built from an iterable observes its own entries,
untouched by an external mutation of a pre-existing map object. -/
theorem diff_ownership_witness :
    observe (construct [[]] (.fromIterable [("b".data, "M".data)])).1
      (construct [[]] (.fromIterable [("b".data, "M".data)])).2
      = newMap [("b".data, "M".data)] ∧
    observe (storeMapSet (construct [[]] (.fromIterable [("b".data, "M".data)])).1
        0 "a".data "A".data)
      (construct [[]] (.fromIterable [("b".data, "M".data)])).2
      = newMap [("b".data, "M".data)] :=
  diff_ownership [[]] [("b".data, "M".data)] 0 "a".data "A".data (by decide)

end GitDiff

